import Mathlib

/-!
Verification of the interval-algebra core of `compute_availability.py`.

Shallow embedding conventions:
* Timestamps are modelled as `Int`, measured in seconds (a Python
  `datetime` compared with `timedelta(minutes=m)` becomes an `Int`
  compared against `60 * m`).
* A time interval `(start, end)` is a pair `Int × Int`.
* Python lists become `List`, and the mutating loops of the source are
  rendered as structural recursions carrying the loop state.
-/

namespace ICSAvail

/-- One time interval: `(start, end)` as in the Python tuples. -/
abbrev Interval := Int × Int

/-- `t` lies inside the half-open interval `iv = (start, end)`. -/
def memIv (t : Int) (iv : Interval) : Prop := iv.1 ≤ t ∧ t < iv.2

instance (t : Int) (iv : Interval) : Decidable (memIv t iv) := by
  unfold memIv; infer_instance

/-- Loop body of `merge_overlapping_intervals`: `last` is the interval
currently at the end of the accumulator (`merged[-1]` in the source); an
interval already committed before `last` is never touched again, so the
loop is the recursion below. -/
def mergeGo (last : Interval) : List Interval → List Interval
  | [] => [last]
  | (current_start, current_end) :: rest =>
    if current_start ≤ last.2 then
      -- Overlapping or adjacent intervals
      mergeGo (last.1, max last.2 current_end) rest
    else
      last :: mergeGo (current_start, current_end) rest

/-- `merge_overlapping_intervals` from `compute_availability.py`
(lines 91–107): merge overlapping time intervals. -/
def merge_overlapping_intervals : List Interval → List Interval
  | [] => []
  | first :: rest => mergeGo first rest

/-- Python's `bisect.bisect_left` on a list of keys sorted ascending:
the leftmost insertion point, i.e. the number of leading elements `< x`. -/
def bisect_left (l : List Int) (x : Int) : Nat :=
  (l.takeWhile (fun y => decide (y < x))).length

/-- The trailing emission of the per-block scan ("Add remaining time in
work block if any", lines 211–213). -/
def trailingSlot (work_end min_duration current_start : Int) : List Interval :=
  if current_start < work_end ∧ work_end - current_start > min_duration then
    [(current_start, work_end)]
  else []

/-- The `while idx < len(busy_times)` loop of `compute_available_slots`
(lines 189–213), as a recursion over the not-yet-visited suffix of the
merged busy list; `current_start` is the cursor. The trailing check after
the loop is folded into the base and break cases. -/
def scanBusy (work_end min_duration : Int) : Int → List Interval → List Interval
  | current_start, [] => trailingSlot work_end min_duration current_start
  | current_start, (busy_start, busy_end) :: rest =>
    if busy_start ≥ work_end then
      -- busy time is completely after this work block: break
      trailingSlot work_end min_duration current_start
    else if busy_end ≤ current_start then
      -- busy time is completely before current position: skip it
      scanBusy work_end min_duration current_start rest
    else
      (if current_start < busy_start ∧
          min busy_start work_end - current_start > min_duration then
        [(current_start, min busy_start work_end)]
      else []) ++
      scanBusy work_end min_duration (max current_start busy_end) rest

/-- The starting index of the scan for one working block: `bisect_left`
on the merged busy starts, stepped one back when positive (lines 182–185). -/
def scanStartIdx (busy_starts : List Int) (work_start : Int) : Nat :=
  let idx := bisect_left busy_starts work_start
  if idx > 0 then idx - 1 else idx

/-- The body of the `for work_start, work_end in working_blocks` loop
(lines 179–213): slots emitted for one working block. -/
def blockScan (busy_times : List Interval) (min_duration : Int)
    (wb : Interval) : List Interval :=
  scanBusy wb.2 min_duration wb.1
    (busy_times.drop (scanStartIdx (busy_times.map Prod.fst) wb.1))

/-- `compute_available_slots` from `compute_availability.py`
(lines 150–215). `min_duration_minutes` defaults to 44; the comparison
threshold is `timedelta(minutes=min_duration_minutes)`, i.e.
`60 * min_duration_minutes` seconds. -/
def compute_available_slots (working_blocks busy_times : List Interval)
    (min_duration_minutes : Int := 44) : List Interval :=
  if working_blocks = [] then []
  else
    let busy := merge_overlapping_intervals busy_times
    let min_duration := 60 * min_duration_minutes
    if busy = [] then
      -- No busy times: all working blocks are available (if they meet min duration)
      working_blocks.filter (fun wb => decide (wb.2 - wb.1 > min_duration))
    else
      (working_blocks.map (blockScan busy min_duration)).flatten

/-- Sorted ascending by interval start (the order produced by
`busy_times.sort(key=lambda x: x[0])`). -/
def SortedByStart (l : List Interval) : Prop :=
  List.Pairwise (fun a b => a.1 ≤ b.1) l

instance (l : List Interval) : Decidable (SortedByStart l) := by
  unfold SortedByStart; infer_instance

/-- Modelled from the spec: "Pad every busy interval by `buffer_minutes`
on both sides: (start − buffer, end + buffer)." No padding code exists in
`compute_availability.py`; this renders the spec's words for comparison. -/
def pad_busy (buffer_minutes : Int) (iv : Interval) : Interval :=
  (iv.1 - 60 * buffer_minutes, iv.2 + 60 * buffer_minutes)

/-- Modelled from the spec: the Availability Solver algorithm of §4.4 as
the spec words it — pad every busy interval by the buffer (skipped when
the buffer is zero), sort by start (a stable sort, as Python's
`list.sort`), merge, then subtract per working block exactly like the
code. Steps 1–2 (pad and sort) are absent from `compute_availability.py`. -/
def compute_available_slots_spec (working_blocks busy_times : List Interval)
    (buffer_minutes min_duration_minutes : Int) : List Interval :=
  if working_blocks = [] then []
  else
    let padded := if buffer_minutes = 0 then busy_times
      else busy_times.map (pad_busy buffer_minutes)
    let srt := List.insertionSort (fun a b : Interval => a.1 ≤ b.1) padded
    let busy := merge_overlapping_intervals srt
    let min_duration := 60 * min_duration_minutes
    if busy = [] then
      working_blocks.filter (fun wb => decide (wb.2 - wb.1 > min_duration))
    else
      (working_blocks.map (blockScan busy min_duration)).flatten

/-- `AVAILABILITY_LEAD_DAYS` constant (line 23). -/
def AVAILABILITY_LEAD_DAYS : Nat := 3

/-- Dates are modelled as a count of calendar days from an epoch Monday;
`weekday` is then Python's `date.weekday()`: 0 = Monday … 6 = Sunday. -/
def weekday (d : Nat) : Nat := d % 7

/-- The `while working_days_added < AVAILABILITY_LEAD_DAYS` loop of
`calculate_availability_start_date` (lines 141–144). -/
def calcLoop (current : Nat) (working_days_added : Nat) : Nat :=
  if working_days_added < AVAILABILITY_LEAD_DAYS then
    calcLoop (current + 1)
      (if weekday (current + 1) < 5 then working_days_added + 1
       else working_days_added)
  else current
termination_by
  (AVAILABILITY_LEAD_DAYS - working_days_added) * 7 +
    (if weekday (current + 1) < 5 then 0 else 7 - weekday (current + 1))
decreasing_by
  rename_i h
  simp only [AVAILABILITY_LEAD_DAYS, weekday] at h ⊢
  split <;> split <;> omega

/-- `calculate_availability_start_date` (lines 128–147); the result is the
reached calendar day (the Python code returns it at start of day in the
base date's timezone, which the day-level model keeps implicit). -/
def calculate_availability_start_date (base_date : Nat) : Nat :=
  calcLoop base_date 0

/-- Outcome of handing an event's RRULE string to `dateutil.rrulestr`:
either the ordered stream of generated occurrence starts, or the
exception path of lines 67–72. -/
inductive RRule where
  | parsed (occurrence_starts : List Int)
  | parseError
deriving DecidableEq

/-- A VEVENT as `expand_recurring_events` reads it: `DTSTART`/`DTEND`
(`none` models a missing field, whose access raises) and the optional
recurrence rule. -/
structure VEvent where
  dtstart : Option Int
  dtend : Option Int
  rrule : Option RRule
deriving DecidableEq

/-- The `for occurrence_start in rule` loop (lines 61–65). -/
def occLoop (end_date start_date duration : Int) : List Int → List (Int × Int)
  | [] => []
  | occurrence_start :: rest =>
    if occurrence_start > end_date then []
    else if occurrence_start ≥ start_date then
      (occurrence_start, occurrence_start + duration) ::
        occLoop end_date start_date duration rest
    else occLoop end_date start_date duration rest

/-- `expand_recurring_events` (lines 41–72). The returned `Bool` records
whether the warning of line 68 was printed; `Except.error` models an
exception escaping the function (e.g. a missing `DTSTART`/`DTEND` field,
whose attribute access raises before the `try` block). -/
def expand_recurring_events (event : VEvent) (start_date end_date : Int) :
    Except String (List (Int × Int) × Bool) :=
  match event.dtstart, event.dtend with
  | some dtstart, some dtend =>
    match event.rrule with
    | none =>
      Except.ok
        (if start_date ≤ dtstart ∧ dtstart ≤ end_date then [(dtstart, dtend)]
         else [], false)
    | some (RRule.parsed occurrence_starts) =>
      Except.ok (occLoop end_date start_date (dtend - dtstart)
        occurrence_starts, false)
    | some RRule.parseError =>
      Except.ok
        (if start_date ≤ dtstart ∧ dtstart ≤ end_date then [(dtstart, dtend)]
         else [], true)
  | _, _ => Except.error "missing DTSTART or DTEND"

/-- One iteration of the `for component in cal.walk()` loop of
`get_busy_times` (lines 79–84): extend with the event's occurrences, or
catch the exception, warn and continue. The `Nat` counts warnings. -/
def busyStep (start_date end_date : Int) (acc : List (Int × Int) × Nat)
    (event : VEvent) : List (Int × Int) × Nat :=
  match expand_recurring_events event start_date end_date with
  | Except.ok (occs, warned) => (acc.1 ++ occs, acc.2 + if warned then 1 else 0)
  | Except.error _ => (acc.1, acc.2 + 1)

/-- `get_busy_times` (lines 75–88): expand every event, collecting
warnings, then sort by start time (Python's stable sort, modelled by a
stable insertion sort on the start key). -/
def get_busy_times (events : List VEvent) (start_date end_date : Int) :
    List (Int × Int) × Nat :=
  let res := events.foldl (busyStep start_date end_date) ([], 0)
  (List.insertionSort (fun a b : Interval => a.1 ≤ b.1) res.1, res.2)

/-! ### Structural lemmas about `merge_overlapping_intervals` -/

/-- The head of `mergeGo last l` keeps the start of `last`, and its end
is at least `last`'s end. -/
theorem mergeGo_head (l : List Interval) :
    ∀ last : Interval, ∃ e tl,
      mergeGo last l = (last.1, e) :: tl ∧ last.2 ≤ e := by
  induction l with
  | nil => intro last; exact ⟨last.2, [], rfl, le_refl _⟩
  | cons c rest ih =>
    intro last
    obtain ⟨cs, ce⟩ := c
    by_cases h : cs ≤ last.2
    · obtain ⟨e, tl, heq, hle⟩ := ih (last.1, max last.2 ce)
      exact ⟨e, tl, by simpa [mergeGo, h] using heq,
        le_trans (le_max_left _ _) hle⟩
    · exact ⟨last.2, mergeGo (cs, ce) rest, by simp [mergeGo, h], le_refl _⟩

/-- Adjacent output intervals of the merge loop are strictly separated. -/
theorem mergeGo_chain' (l : List Interval) :
    ∀ last : Interval, List.Chain' (fun a b => a.2 < b.1) (mergeGo last l) := by
  induction l with
  | nil => intro last; simp [mergeGo]
  | cons c rest ih =>
    intro last
    obtain ⟨cs, ce⟩ := c
    by_cases h : cs ≤ last.2
    · simpa [mergeGo, h] using ih (last.1, max last.2 ce)
    · obtain ⟨e, tl, heq, _⟩ := mergeGo_head rest (cs, ce)
      have hch := ih (cs, ce)
      rw [heq] at hch
      simp only [mergeGo, h, if_false, ge_iff_le, if_neg]
      rw [heq]
      exact List.Chain'.cons (by simpa using not_le.mp h) hch

/-- The merge loop leaves a list whose adjacent intervals are already
strictly separated unchanged. -/
theorem mergeGo_of_chain' (l : List Interval) :
    ∀ last : Interval, List.Chain' (fun a b => a.2 < b.1) (last :: l) →
      mergeGo last l = last :: l := by
  induction l with
  | nil => intro last _; rfl
  | cons c rest ih =>
    intro last hch
    obtain ⟨cs, ce⟩ := c
    rcases hch with _ | ⟨hsep, hch'⟩
    have h : ¬ cs ≤ last.2 := not_le.mpr hsep
    simp only [mergeGo, h, if_false]
    rw [ih (cs, ce) hch']

/-- Every interval output by the merge loop is valid (`start < end`),
provided the inputs are. -/
theorem mergeGo_valid (l : List Interval) :
    ∀ last : Interval, last.1 < last.2 → (∀ b ∈ l, b.1 < b.2) →
      ∀ b ∈ mergeGo last l, b.1 < b.2 := by
  induction l with
  | nil => intro last hlast _ b hb; simp [mergeGo] at hb; subst hb; exact hlast
  | cons c rest ih =>
    intro last hlast hall b hb
    obtain ⟨cs, ce⟩ := c
    by_cases h : cs ≤ last.2
    · rw [mergeGo, if_pos h] at hb
      exact ih (last.1, max last.2 ce)
        (lt_of_lt_of_le hlast (le_max_left _ _))
        (fun x hx => hall x (List.mem_cons_of_mem _ hx)) b hb
    · rw [mergeGo, if_neg h] at hb
      rcases List.mem_cons.mp hb with hb | hb
      · subst hb; exact hlast
      · exact ih (cs, ce) (hall (cs, ce) (List.mem_cons_self _ _))
          (fun x hx => hall x (List.mem_cons_of_mem _ hx)) b hb

/-- With valid inputs, every interval output by the merge loop starts no
earlier than `last` does. -/
theorem mergeGo_start_lb (l : List Interval) :
    ∀ last : Interval, last.1 < last.2 → (∀ b ∈ l, b.1 < b.2) →
      ∀ x ∈ mergeGo last l, last.1 ≤ x.1 := by
  induction l with
  | nil => intro last _ _ x hx; simp [mergeGo] at hx; subst hx; exact le_refl _
  | cons c rest ih =>
    intro last hlast hall x hx
    obtain ⟨cs, ce⟩ := c
    by_cases h : cs ≤ last.2
    · rw [mergeGo, if_pos h] at hx
      exact ih (last.1, max last.2 ce)
        (lt_of_lt_of_le hlast (le_max_left _ _))
        (fun b hb => hall b (List.mem_cons_of_mem _ hb)) x hx
    · rw [mergeGo, if_neg h] at hx
      rcases List.mem_cons.mp hx with hx | hx
      · subst hx; exact le_refl _
      · have hc : cs < ce := hall (cs, ce) (List.mem_cons_self _ _)
        have := ih (cs, ce) hc
          (fun b hb => hall b (List.mem_cons_of_mem _ hb)) x hx
        have h2 : last.2 < cs := not_le.mp h
        exact le_of_lt (lt_of_lt_of_le (lt_trans hlast h2) this)

/-- With valid inputs, the merge loop's output is pairwise strictly
separated. -/
theorem mergeGo_pairwise (l : List Interval) :
    ∀ last : Interval, last.1 < last.2 → (∀ b ∈ l, b.1 < b.2) →
      List.Pairwise (fun a b => a.2 < b.1) (mergeGo last l) := by
  induction l with
  | nil => intro last _ _; simp [mergeGo]
  | cons c rest ih =>
    intro last hlast hall
    obtain ⟨cs, ce⟩ := c
    by_cases h : cs ≤ last.2
    · rw [mergeGo, if_pos h]
      exact ih (last.1, max last.2 ce)
        (lt_of_lt_of_le hlast (le_max_left _ _))
        (fun b hb => hall b (List.mem_cons_of_mem _ hb))
    · rw [mergeGo, if_neg h]
      have hc : cs < ce := hall (cs, ce) (List.mem_cons_self _ _)
      have hrest : ∀ b ∈ rest, b.1 < b.2 :=
        fun b hb => hall b (List.mem_cons_of_mem _ hb)
      refine List.Pairwise.cons (fun x hx => ?_) (ih (cs, ce) hc hrest)
      have h2 : last.2 < cs := not_le.mp h
      exact lt_of_lt_of_le h2 (mergeGo_start_lb rest (cs, ce) hc hrest x hx)

/-- All intervals returned by `merge_overlapping_intervals` are valid when
the inputs are. -/
theorem merge_valid {l : List Interval} (h : ∀ b ∈ l, b.1 < b.2) :
    ∀ b ∈ merge_overlapping_intervals l, b.1 < b.2 := by
  cases l with
  | nil => intro b hb; simp [merge_overlapping_intervals] at hb
  | cons first rest =>
    exact mergeGo_valid rest first (h first (List.mem_cons_self _ _))
      (fun b hb => h b (List.mem_cons_of_mem _ hb))

/-- The output of `merge_overlapping_intervals` is pairwise strictly
separated when the inputs are valid. -/
theorem merge_pairwise {l : List Interval} (h : ∀ b ∈ l, b.1 < b.2) :
    List.Pairwise (fun a b => a.2 < b.1) (merge_overlapping_intervals l) := by
  cases l with
  | nil => simp [merge_overlapping_intervals]
  | cons first rest =>
    exact mergeGo_pairwise rest first (h first (List.mem_cons_self _ _))
      (fun b hb => h b (List.mem_cons_of_mem _ hb))

/-- Adjacent outputs of `merge_overlapping_intervals` are strictly
separated, for any input. -/
theorem merge_chain' (l : List Interval) :
    List.Chain' (fun a b => a.2 < b.1) (merge_overlapping_intervals l) := by
  cases l with
  | nil => simp [merge_overlapping_intervals]
  | cons first rest => exact mergeGo_chain' rest first

/-- A list whose adjacent intervals are strictly separated is a fixed
point of `merge_overlapping_intervals`. -/
theorem merge_of_chain' {l : List Interval}
    (h : List.Chain' (fun a b => a.2 < b.1) l) :
    merge_overlapping_intervals l = l := by
  cases l with
  | nil => rfl
  | cons first rest => exact mergeGo_of_chain' rest first h

/-! ### Structural lemmas about the per-block scan -/

/-- Membership in the trailing emission. -/
theorem trailingSlot_mem {we md cs : Int} {s : Interval}
    (hs : s ∈ trailingSlot we md cs) :
    s = (cs, we) ∧ cs < we ∧ we - cs > md := by
  unfold trailingSlot at hs
  split at hs
  · next h => simp only [List.mem_singleton] at hs; exact ⟨hs, h.1, h.2⟩
  · simp at hs

/-- Every slot emitted by the scan starts at or after the cursor. -/
theorem scanBusy_start_lb (we md : Int) :
    ∀ (rest : List Interval) (cs : Int), ∀ s ∈ scanBusy we md cs rest, cs ≤ s.1 := by
  intro rest
  induction rest with
  | nil =>
    intro cs s hs
    obtain ⟨rfl, _, _⟩ := trailingSlot_mem hs
    exact le_refl _
  | cons b rest ih =>
    intro cs s hs
    obtain ⟨bs, be⟩ := b
    rw [scanBusy] at hs
    split at hs
    · obtain ⟨rfl, _, _⟩ := trailingSlot_mem hs
      exact le_refl _
    · split at hs
      · exact ih cs s hs
      · rcases List.mem_append.mp hs with hs | hs
        · split at hs
          · next h =>
            simp only [List.mem_singleton] at hs; subst hs; exact le_refl _
          · simp at hs
        · exact le_trans (le_max_left _ _) (ih (max cs be) s hs)

/-- With a nonnegative minimum duration every emitted slot is nonempty
and ends inside the block. -/
theorem scanBusy_mem_bounds (we md : Int) (hmd : 0 ≤ md) :
    ∀ (rest : List Interval) (cs : Int), ∀ s ∈ scanBusy we md cs rest,
      s.1 < s.2 ∧ s.2 ≤ we := by
  intro rest
  induction rest with
  | nil =>
    intro cs s hs
    obtain ⟨rfl, h1, _⟩ := trailingSlot_mem hs
    exact ⟨h1, le_refl _⟩
  | cons b rest ih =>
    intro cs s hs
    obtain ⟨bs, be⟩ := b
    rw [scanBusy] at hs
    split at hs
    · obtain ⟨rfl, h1, _⟩ := trailingSlot_mem hs
      exact ⟨h1, le_refl _⟩
    · split at hs
      · exact ih cs s hs
      · rcases List.mem_append.mp hs with hs | hs
        · split at hs
          · next h =>
            simp only [List.mem_singleton] at hs; subst hs
            refine ⟨?_, min_le_right _ _⟩
            have := h.2
            omega
          · simp at hs
        · exact ih (max cs be) s hs

/-- Every emitted slot has duration strictly above the minimum. -/
theorem scanBusy_min_dur (we md : Int) :
    ∀ (rest : List Interval) (cs : Int), ∀ s ∈ scanBusy we md cs rest,
      md < s.2 - s.1 := by
  intro rest
  induction rest with
  | nil =>
    intro cs s hs
    obtain ⟨rfl, _, h2⟩ := trailingSlot_mem hs
    omega
  | cons b rest ih =>
    intro cs s hs
    obtain ⟨bs, be⟩ := b
    rw [scanBusy] at hs
    split at hs
    · obtain ⟨rfl, _, h2⟩ := trailingSlot_mem hs
      omega
    · split at hs
      · exact ih cs s hs
      · rcases List.mem_append.mp hs with hs | hs
        · split at hs
          · next h =>
            simp only [List.mem_singleton] at hs; subst hs
            have := h.2
            omega
          · simp at hs
        · exact ih (max cs be) s hs

/-- The slots emitted while scanning one block are ordered and pairwise
disjoint. -/
theorem scanBusy_pairwise (we md : Int) :
    ∀ (rest : List Interval), (∀ b ∈ rest, b.1 < b.2) →
      ∀ cs, List.Pairwise (fun a b => a.2 ≤ b.1) (scanBusy we md cs rest) := by
  intro rest
  induction rest with
  | nil =>
    intro _ cs
    unfold scanBusy trailingSlot
    split <;> simp
  | cons b rest ih =>
    intro hvalid cs
    obtain ⟨bs, be⟩ := b
    have hv : bs < be := hvalid (bs, be) (List.mem_cons_self _ _)
    have hrest : ∀ x ∈ rest, x.1 < x.2 :=
      fun x hx => hvalid x (List.mem_cons_of_mem _ hx)
    rw [scanBusy]
    split
    · unfold trailingSlot; split <;> simp
    · split
      · exact ih hrest cs
      · split
        · next h =>
          refine List.pairwise_cons.mpr ⟨fun s hs => ?_, ih hrest (max cs be)⟩
          have hlb := scanBusy_start_lb we md rest (max cs be) s hs
          have : min bs we ≤ bs := min_le_left _ _
          omega
        · simpa using ih hrest (max cs be)

/-- Slots emitted by the scan never overlap any busy interval of the
(valid, separated) suffix being scanned. -/
theorem scanBusy_disjoint (we md : Int) :
    ∀ (rest : List Interval), (∀ b ∈ rest, b.1 < b.2) →
      List.Pairwise (fun a b => a.2 < b.1) rest →
      ∀ cs, ∀ b ∈ rest, ∀ s ∈ scanBusy we md cs rest,
        s.2 ≤ b.1 ∨ b.2 ≤ s.1 := by
  intro rest
  induction rest with
  | nil => intro _ _ cs b hb; simp at hb
  | cons hd rest ih =>
    intro hvalid hpw cs b hb s hs
    obtain ⟨bs, be⟩ := hd
    have hv : bs < be := hvalid (bs, be) (List.mem_cons_self _ _)
    have hrest : ∀ x ∈ rest, x.1 < x.2 :=
      fun x hx => hvalid x (List.mem_cons_of_mem _ hx)
    have hsep : ∀ x ∈ rest, be < x.1 := (List.pairwise_cons.mp hpw).1
    have hpw' : List.Pairwise (fun a b => a.2 < b.1) rest :=
      (List.pairwise_cons.mp hpw).2
    rw [scanBusy] at hs
    split at hs
    · next hbrk =>
      obtain ⟨rfl, _, _⟩ := trailingSlot_mem hs
      rcases List.mem_cons.mp hb with rfl | hb
      · left; simpa using hbrk
      · left
        have := hsep b hb
        simp only
        omega
    · split at hs
      · next hskip =>
        rcases List.mem_cons.mp hb with rfl | hb
        · right
          have := scanBusy_start_lb we md rest cs s hs
          simp only
          omega
        · exact ih hrest hpw' cs b hb s hs
      · rcases List.mem_append.mp hs with hs | hs
        · split at hs
          · next hgap =>
            simp only [List.mem_singleton] at hs; subst hs
            rcases List.mem_cons.mp hb with rfl | hb
            · left; simp only; exact min_le_left _ _
            · left
              have := hsep b hb
              have : min bs we ≤ bs := min_le_left _ _
              simp only
              omega
          · simp at hs
        · rcases List.mem_cons.mp hb with rfl | hb
          · right
            have := scanBusy_start_lb we md rest (max cs be) s hs
            simp only
            omega
          · exact ih hrest hpw' (max cs be) b hb s hs

/-- With minimum duration zero, every instant of the block after the
cursor is covered by an emitted slot or by a busy interval of the
scanned suffix. -/
theorem scanBusy_cover (we : Int) :
    ∀ (rest : List Interval) (cs t : Int), cs ≤ t → t < we →
      (∃ s ∈ scanBusy we 0 cs rest, memIv t s) ∨ (∃ b ∈ rest, memIv t b) := by
  intro rest
  induction rest with
  | nil =>
    intro cs t h1 h2
    left
    refine ⟨(cs, we), ?_, h1, h2⟩
    unfold scanBusy trailingSlot
    rw [if_pos ⟨by omega, by omega⟩]
    simp
  | cons hd rest ih =>
    intro cs t h1 h2
    obtain ⟨bs, be⟩ := hd
    rw [scanBusy]
    by_cases hbrk : bs ≥ we
    · rw [if_pos hbrk]
      left
      refine ⟨(cs, we), ?_, h1, h2⟩
      unfold trailingSlot
      rw [if_pos ⟨by omega, by omega⟩]
      simp
    · rw [if_neg hbrk]
      by_cases hskip : be ≤ cs
      · rw [if_pos hskip]
        rcases ih cs t h1 h2 with h | ⟨b, hb, hmem⟩
        · exact Or.inl h
        · exact Or.inr ⟨b, List.mem_cons_of_mem _ hb, hmem⟩
      · rw [if_neg hskip]
        by_cases hgap : cs < bs
        · by_cases ht : t < bs
          · left
            refine ⟨(cs, min bs we), ?_, h1, by simp only; omega⟩
            rw [if_pos ⟨hgap, by omega⟩]
            exact List.mem_append_left _ (List.mem_singleton.mpr rfl)
          · by_cases ht2 : t < be
            · exact Or.inr ⟨(bs, be), List.mem_cons_self _ _, by omega, ht2⟩
            · rcases ih (max cs be) t (by omega) h2 with ⟨s, hs, hmem⟩ | ⟨b, hb, hmem⟩
              · exact Or.inl ⟨s, List.mem_append_right _ hs, hmem⟩
              · exact Or.inr ⟨b, List.mem_cons_of_mem _ hb, hmem⟩
        · by_cases ht2 : t < be
          · exact Or.inr ⟨(bs, be), List.mem_cons_self _ _, by omega, ht2⟩
          · rcases ih (max cs be) t (by omega) h2 with ⟨s, hs, hmem⟩ | ⟨b, hb, hmem⟩
            · refine Or.inl ⟨s, ?_, hmem⟩
              rw [if_neg (by omega)]
              simpa using hs
            · exact Or.inr ⟨b, List.mem_cons_of_mem _ hb, hmem⟩

/-- Busy intervals skipped by the binary-search positioning (those before
`scanStartIdx`) end strictly before the block starts, so they cannot
reach into the block. -/
theorem take_scanStartIdx_bound :
    ∀ (merged : List Interval) (ws : Int),
      List.Pairwise (fun a b => a.2 < b.1) merged →
      ∀ b ∈ merged.take (scanStartIdx (merged.map Prod.fst) ws), b.2 < ws := by
  intro merged
  induction merged with
  | nil => intro ws _ b hb; simp [scanStartIdx, bisect_left] at hb
  | cons hd tl ih =>
    intro ws hpw b hb
    obtain ⟨s0, e0⟩ := hd
    by_cases h0 : s0 < ws
    · have hbors : bisect_left (s0 :: tl.map Prod.fst) ws =
          bisect_left (tl.map Prod.fst) ws + 1 := by
        simp [bisect_left, List.takeWhile_cons, h0]
      cases hk : bisect_left (tl.map Prod.fst) ws with
      | zero =>
        have : scanStartIdx (((s0, e0) :: tl).map Prod.fst) ws = 0 := by
          simp only [scanStartIdx, List.map_cons, hbors, hk]
          decide
        rw [this] at hb
        simp at hb
      | succ k =>
        have hidx : scanStartIdx (((s0, e0) :: tl).map Prod.fst) ws = k + 1 := by
          simp only [scanStartIdx, List.map_cons, hbors, hk]
          simp
        rw [hidx, List.take_succ_cons] at hb
        rcases List.mem_cons.mp hb with rfl | hb
        · -- the head itself: its end is below the start of `tl`'s head,
          -- which the positive bisect count places below `ws`
          cases htl : tl with
          | nil => rw [htl] at hk; simp [bisect_left] at hk
          | cons b1 tl' =>
            obtain ⟨b1s, b1e⟩ := b1
            rw [htl] at hk
            by_cases hb1 : b1s < ws
            · have hrel := (List.pairwise_cons.mp hpw).1 (b1s, b1e)
                (by rw [htl]; exact List.mem_cons_self _ _)
              simp only at hrel
              omega
            · simp [bisect_left, List.takeWhile_cons, hb1] at hk
        · have hidx' : scanStartIdx (tl.map Prod.fst) ws = k := by
            simp [scanStartIdx, hk]
          exact ih ws (List.pairwise_cons.mp hpw).2 b (by rw [hidx']; exact hb)
    · have : scanStartIdx (((s0, e0) :: tl).map Prod.fst) ws = 0 := by
        simp [scanStartIdx, bisect_left, List.takeWhile_cons, h0]
      rw [this] at hb
      simp at hb

/-! ### Lemmas about the business-day walk -/

/-- One iteration of the lead-day loop. -/
theorem calcLoop_step (c a : Nat) (h : a < 3) :
    calcLoop c a = calcLoop (c + 1) (if (c + 1) % 7 < 5 then a + 1 else a) := by
  rw [calcLoop.eq_def]
  simp only [weekday, AVAILABILITY_LEAD_DAYS]
  rw [if_pos h]

/-- The loop stops once three working days have been added. -/
theorem calcLoop_done (c : Nat) : calcLoop c 3 = c := by
  rw [calcLoop.eq_def]
  simp [AVAILABILITY_LEAD_DAYS]

/-- Closed form of the walk: the added offset depends only on the
reference's weekday (0 = Monday): Mon/Tue +3, Wed/Thu/Fri +5, Sat +4,
Sun +3. -/
theorem calcLoop_master (base : Nat) :
    calcLoop base 0 = base +
      (if base % 7 ≤ 1 then 3
       else if base % 7 ≤ 4 then 5
       else if base % 7 = 5 then 4
       else 3) := by
  rcases (show base % 7 = 0 ∨ base % 7 = 1 ∨ base % 7 = 2 ∨ base % 7 = 3 ∨
      base % 7 = 4 ∨ base % 7 = 5 ∨ base % 7 = 6 by omega) with
    h | h | h | h | h | h | h
  · rw [calcLoop_step _ _ (by omega), if_pos (by omega),
        calcLoop_step _ _ (by omega), if_pos (by omega),
        calcLoop_step _ _ (by omega), if_pos (by omega), calcLoop_done]
    simp only [h]
    norm_num
  · rw [calcLoop_step _ _ (by omega), if_pos (by omega),
        calcLoop_step _ _ (by omega), if_pos (by omega),
        calcLoop_step _ _ (by omega), if_pos (by omega), calcLoop_done]
    simp only [h]
    norm_num
  · rw [calcLoop_step _ _ (by omega), if_pos (by omega),
        calcLoop_step _ _ (by omega), if_pos (by omega),
        calcLoop_step _ _ (by omega), if_neg (by omega),
        calcLoop_step _ _ (by omega), if_neg (by omega),
        calcLoop_step _ _ (by omega), if_pos (by omega), calcLoop_done]
    simp only [h]
    norm_num
  · rw [calcLoop_step _ _ (by omega), if_pos (by omega),
        calcLoop_step _ _ (by omega), if_neg (by omega),
        calcLoop_step _ _ (by omega), if_neg (by omega),
        calcLoop_step _ _ (by omega), if_pos (by omega),
        calcLoop_step _ _ (by omega), if_pos (by omega), calcLoop_done]
    simp only [h]
    norm_num
  · rw [calcLoop_step _ _ (by omega), if_neg (by omega),
        calcLoop_step _ _ (by omega), if_neg (by omega),
        calcLoop_step _ _ (by omega), if_pos (by omega),
        calcLoop_step _ _ (by omega), if_pos (by omega),
        calcLoop_step _ _ (by omega), if_pos (by omega), calcLoop_done]
    simp only [h]
    norm_num
  · rw [calcLoop_step _ _ (by omega), if_neg (by omega),
        calcLoop_step _ _ (by omega), if_pos (by omega),
        calcLoop_step _ _ (by omega), if_pos (by omega),
        calcLoop_step _ _ (by omega), if_pos (by omega), calcLoop_done]
    simp only [h]
    norm_num
  · rw [calcLoop_step _ _ (by omega), if_pos (by omega),
        calcLoop_step _ _ (by omega), if_pos (by omega),
        calcLoop_step _ _ (by omega), if_pos (by omega), calcLoop_done]
    simp only [h]
    norm_num

/-! ### Lemmas about occurrence expansion -/

/-- The occurrence loop is take-until-past-the-window, filter, shift. -/
theorem occLoop_eq (ed sd dur : Int) :
    ∀ starts : List Int,
      occLoop ed sd dur starts =
        ((starts.takeWhile (fun s => decide (s ≤ ed))).filter
          (fun s => decide (sd ≤ s))).map (fun s => (s, s + dur)) := by
  intro starts
  induction starts with
  | nil => rfl
  | cons s rest ih =>
    by_cases h1 : s > ed
    · have h1' : ¬ s ≤ ed := by omega
      simp [occLoop, h1, List.takeWhile_cons, h1']
    · have h1' : s ≤ ed := by omega
      by_cases h2 : s ≥ sd
      · simp [occLoop, h1, h2, List.takeWhile_cons, h1', ih]
      · have h2' : ¬ sd ≤ s := by omega
        simp [occLoop, h1, h2, List.takeWhile_cons, h1', h2', ih]

/-- The warning counter threaded through `get_busy_times`'s loop is
additive in its starting value. -/
theorem busyFold_add (sd ed : Int) :
    ∀ (evs : List VEvent) (l : List (Int × Int)) (n k : Nat),
      evs.foldl (busyStep sd ed) (l, n + k) =
        ((evs.foldl (busyStep sd ed) (l, n)).1,
         (evs.foldl (busyStep sd ed) (l, n)).2 + k) := by
  intro evs
  induction evs with
  | nil => intro l n k; rfl
  | cons e evs ih =>
    intro l n k
    simp only [List.foldl_cons]
    cases hex : expand_recurring_events e sd ed with
    | ok val =>
      obtain ⟨occs, warned⟩ := val
      have h1 : busyStep sd ed (l, n + k) e =
          (l ++ occs, (n + (if warned then 1 else 0)) + k) := by
        unfold busyStep
        rw [hex]
        simp only [Prod.mk.injEq]
        exact ⟨by trivial, by omega⟩
      have h2 : busyStep sd ed (l, n) e =
          (l ++ occs, n + (if warned then 1 else 0)) := by
        unfold busyStep
        rw [hex]
      rw [h1, h2, ih]
    | error msg =>
      have h1 : busyStep sd ed (l, n + k) e = (l, (n + 1) + k) := by
        unfold busyStep
        rw [hex]
        simp only [Prod.mk.injEq]
        exact ⟨by trivial, by omega⟩
      have h2 : busyStep sd ed (l, n) e = (l, n + 1) := by
        unfold busyStep
        rw [hex]
      rw [h1, h2, ih]

/-- `blockScan` unfolded. -/
theorem blockScan_eq (busy : List Interval) (md : Int) (wb : Interval) :
    blockScan busy md wb =
      scanBusy wb.2 md wb.1
        (busy.drop (scanStartIdx (busy.map Prod.fst) wb.1)) := rfl

/-- Bounds of the slots emitted for one block. -/
theorem blockScan_mem_bounds (busy : List Interval) (md : Int) (hmd : 0 ≤ md)
    (wb : Interval) :
    ∀ s ∈ blockScan busy md wb, wb.1 ≤ s.1 ∧ s.1 < s.2 ∧ s.2 ≤ wb.2 := by
  intro s hs
  rw [blockScan_eq] at hs
  exact ⟨scanBusy_start_lb _ _ _ _ s hs,
    (scanBusy_mem_bounds _ _ hmd _ _ s hs).1,
    (scanBusy_mem_bounds _ _ hmd _ _ s hs).2⟩

/-- `compute_available_slots` on a single working block. -/
theorem compute_single_block (wb : Interval) (busy_times : List Interval)
    (m : Int) :
    compute_available_slots [wb] busy_times m =
      if merge_overlapping_intervals busy_times = [] then
        (if wb.2 - wb.1 > 60 * m then [wb] else [])
      else blockScan (merge_overlapping_intervals busy_times) (60 * m) wb := by
  simp only [compute_available_slots]
  rw [if_neg (List.cons_ne_nil wb [])]
  by_cases h : merge_overlapping_intervals busy_times = []
  · rw [if_pos h, if_pos h]
    simp only [List.filter_cons, List.filter_nil]
    by_cases hw : wb.2 - wb.1 > 60 * m
    · rw [if_pos hw]; simp [hw]
    · rw [if_neg hw]; simp [hw]
  · rw [if_neg h, if_neg h]
    simp

/-! ### Claim theorems -/

/-- C1, counterexample: `compute_available_slots` applies no buffer
padding. On the block 13:30–17:00 (seconds 0–12600) with one busy
interval 15:00–15:30 (5400–7200) the code returns slots that touch the
busy interval exactly, while the spec's padded pipeline with the default
10-minute buffer would retract each slot by 600 s; the two disagree. -/
theorem C1_counterexample :
    compute_available_slots [((0:Int), (12600:Int))] [(5400, 7200)] 44 =
      [(0, 5400), (7200, 12600)] ∧
    compute_available_slots_spec [((0:Int), (12600:Int))] [(5400, 7200)] 10 44 =
      [(0, 4800), (7800, 12600)] ∧
    compute_available_slots [((0:Int), (12600:Int))] [(5400, 7200)] 44 ≠
      compute_available_slots_spec [((0:Int), (12600:Int))] [(5400, 7200)] 10 44 := by
  refine ⟨by decide, by decide, by decide⟩

/-- C1 (amended): `compute_available_slots` performs no padding at all —
it behaves exactly like the spec's Availability Solver pipeline with
`buffer_minutes = 0` (whenever the busy list is sorted by start, as its
caller guarantees); no `buffer_minutes` parameter exists in the code. -/
theorem C1_no_buffer_padding (working_blocks busy_times : List Interval)
    (m : Int) (hsorted : SortedByStart busy_times) :
    compute_available_slots working_blocks busy_times m =
      compute_available_slots_spec working_blocks busy_times 0 m := by
  simp only [compute_available_slots, compute_available_slots_spec,
    eq_self_iff_true, if_true]
  rw [List.Sorted.insertionSort_eq hsorted]

/-- C1 witness. -/
theorem C1_no_buffer_padding_witness :
    SortedByStart [((5400:Int), (7200:Int))] ∧
    compute_available_slots [((0:Int), (12600:Int))] [(5400, 7200)] 44 =
      compute_available_slots_spec [((0:Int), (12600:Int))] [(5400, 7200)] 0 44 :=
  ⟨by decide, C1_no_buffer_padding _ _ _ (by decide)⟩

/-- C3: every available slot emitted by `compute_available_slots` —
whether from the no-busy-times case, a gap before a busy interval, or a
block's trailing remainder — has duration strictly greater than
`min_duration_minutes`; a slot exactly equal to the minimum is dropped. -/
theorem C3_strict_min_duration (working_blocks busy_times : List Interval)
    (m : Int) :
    ∀ s ∈ compute_available_slots working_blocks busy_times m,
      60 * m < s.2 - s.1 := by
  intro s hs
  simp only [compute_available_slots] at hs
  split at hs
  · simp at hs
  · split at hs
    · have := (List.mem_filter.mp hs).2
      simpa using this
    · obtain ⟨l, hl, hsl⟩ := List.mem_flatten.mp hs
      obtain ⟨wb, _, rfl⟩ := List.mem_map.mp hl
      rw [blockScan_eq] at hsl
      exact scanBusy_min_dur _ _ _ _ s hsl

/-- C3 witness. -/
theorem C3_strict_min_duration_witness :
    ((0:Int), (12600:Int)) ∈ compute_available_slots [((0:Int), (12600:Int))] [] 44 ∧
    60 * 44 < (12600:Int) - 0 :=
  ⟨by decide, C3_strict_min_duration [((0:Int), (12600:Int))] [] 44
    ((0:Int), (12600:Int)) (by decide)⟩

/-- C4: `merge_overlapping_intervals` of a list sorted ascending by start
returns `[]` on `[]`; fuses a pair with `next.start ≤ current.end` into
`(current.start, max current.end next.end)`; and keeps a strictly
separated pair (`next.start > current.end`) as distinct elements in
order. -/
theorem C4_merge_contract :
    merge_overlapping_intervals [] = [] ∧
    (∀ (a b : Interval) (rest : List Interval),
      SortedByStart (a :: b :: rest) → b.1 ≤ a.2 →
      merge_overlapping_intervals (a :: b :: rest) =
        merge_overlapping_intervals ((a.1, max a.2 b.2) :: rest)) ∧
    (∀ (a b : Interval) (rest : List Interval),
      SortedByStart (a :: b :: rest) → a.2 < b.1 →
      merge_overlapping_intervals (a :: b :: rest) =
        a :: merge_overlapping_intervals (b :: rest)) := by
  refine ⟨rfl, ?_, ?_⟩
  · intro a b rest _ h
    obtain ⟨bs, be⟩ := b
    simp only [merge_overlapping_intervals, mergeGo]
    rw [if_pos h]
  · intro a b rest _ h
    obtain ⟨bs, be⟩ := b
    simp only [merge_overlapping_intervals, mergeGo]
    rw [if_neg (by simp only at h ⊢; omega)]

/-- C4 witness. -/
theorem C4_merge_contract_witness :
    merge_overlapping_intervals [] = ([] : List Interval) ∧
    (SortedByStart [((0:Int), (5:Int)), (3, 7)] ∧
      merge_overlapping_intervals [((0:Int), (5:Int)), (3, 7)] =
        merge_overlapping_intervals [(((0:Int), (5:Int)).1,
          max ((0:Int), (5:Int)).2 ((3:Int), (7:Int)).2)]) ∧
    (SortedByStart [((0:Int), (2:Int)), (5, 7)] ∧
      merge_overlapping_intervals [((0:Int), (2:Int)), (5, 7)] =
        ((0:Int), (2:Int)) :: merge_overlapping_intervals [(5, 7)]) :=
  ⟨C4_merge_contract.1,
   ⟨by decide, C4_merge_contract.2.1 (0, 5) (3, 7) [] (by decide) (by decide)⟩,
   ⟨by decide, C4_merge_contract.2.2 (0, 2) (5, 7) [] (by decide) (by decide)⟩⟩

/-- C5: on a valid (`start < end`), start-sorted input,
`merge_overlapping_intervals` returns only valid intervals, sorted
strictly ascending by start, with every adjacent pair strictly separated
(no two outputs overlap or touch). -/
theorem C5_merge_invariants (l : List Interval)
    (hvalid : ∀ b ∈ l, b.1 < b.2) (_hsorted : SortedByStart l) :
    (∀ b ∈ merge_overlapping_intervals l, b.1 < b.2) ∧
    List.Pairwise (fun a b => a.1 < b.1) (merge_overlapping_intervals l) ∧
    List.Pairwise (fun a b => a.2 < b.1) (merge_overlapping_intervals l) := by
  refine ⟨merge_valid hvalid, ?_, merge_pairwise hvalid⟩
  refine (merge_pairwise hvalid).imp_of_mem ?_
  intro a b ha _ hsep
  have := merge_valid hvalid a ha
  omega

/-- C5 witness. -/
theorem C5_merge_invariants_witness :
    ((∀ b ∈ [((0:Int), (5:Int)), (3, 7), (9, 11)], b.1 < b.2) ∧
      SortedByStart [((0:Int), (5:Int)), (3, 7), (9, 11)]) ∧
    ((∀ b ∈ merge_overlapping_intervals [((0:Int), (5:Int)), (3, 7), (9, 11)],
        b.1 < b.2) ∧
      List.Pairwise (fun a b => a.1 < b.1)
        (merge_overlapping_intervals [((0:Int), (5:Int)), (3, 7), (9, 11)]) ∧
      List.Pairwise (fun a b => a.2 < b.1)
        (merge_overlapping_intervals [((0:Int), (5:Int)), (3, 7), (9, 11)])) :=
  ⟨⟨by decide, by decide⟩,
   C5_merge_invariants [((0:Int), (5:Int)), (3, 7), (9, 11)] (by decide) (by decide)⟩

/-- C6: `merge_overlapping_intervals` is idempotent on start-sorted
input: merging an already-merged list returns it unchanged. -/
theorem C6_merge_idempotent (l : List Interval) (_hsorted : SortedByStart l) :
    merge_overlapping_intervals (merge_overlapping_intervals l) =
      merge_overlapping_intervals l :=
  merge_of_chain' (merge_chain' l)

/-- C6 witness. -/
theorem C6_merge_idempotent_witness :
    SortedByStart [((0:Int), (5:Int)), (3, 7), (9, 11)] ∧
    merge_overlapping_intervals
        (merge_overlapping_intervals [((0:Int), (5:Int)), (3, 7), (9, 11)]) =
      merge_overlapping_intervals [((0:Int), (5:Int)), (3, 7), (9, 11)] :=
  ⟨by decide, C6_merge_idempotent [((0:Int), (5:Int)), (3, 7), (9, 11)] (by decide)⟩

/-- C7: `calculate_availability_start_date` walks forward one calendar
day at a time, counting only Monday–Friday, until 3 working days are
added (the reference day itself is never counted). The result is always
a weekday; a Tuesday reference (weekday 1) lands 3 days later on the
Friday of the same week (weekday 4); a Saturday reference (weekday 5)
lands 4, and a Sunday reference (weekday 6) 3, days later — both on the
Wednesday (weekday 2) of the following week. -/
theorem C7_lead_days :
    (∀ base : Nat, weekday (calculate_availability_start_date base) < 5) ∧
    (∀ base : Nat, weekday base = 1 →
      calculate_availability_start_date base = base + 3 ∧
        weekday (calculate_availability_start_date base) = 4) ∧
    (∀ base : Nat, weekday base = 5 →
      calculate_availability_start_date base = base + 4 ∧
        weekday (calculate_availability_start_date base) = 2) ∧
    (∀ base : Nat, weekday base = 6 →
      calculate_availability_start_date base = base + 3 ∧
        weekday (calculate_availability_start_date base) = 2) := by
  refine ⟨?_, ?_, ?_, ?_⟩
  · intro base
    unfold calculate_availability_start_date weekday
    rw [calcLoop_master]
    split_ifs <;> omega
  · intro base h
    unfold weekday at h
    unfold calculate_availability_start_date weekday
    rw [calcLoop_master]
    rw [if_pos (by omega)]
    omega
  · intro base h
    unfold weekday at h
    unfold calculate_availability_start_date weekday
    rw [calcLoop_master]
    rw [if_neg (by omega), if_neg (by omega), if_pos (by omega)]
    omega
  · intro base h
    unfold weekday at h
    unfold calculate_availability_start_date weekday
    rw [calcLoop_master]
    rw [if_neg (by omega), if_neg (by omega), if_neg (by omega)]
    omega

/-- C7 witness. -/
theorem C7_lead_days_witness :
    weekday 5 = 5 ∧
    (calculate_availability_start_date 5 = 5 + 4 ∧
      weekday (calculate_availability_start_date 5) = 2) :=
  ⟨by decide, C7_lead_days.2.2.1 5 (by decide)⟩

/-- C8: `expand_recurring_events` on a non-recurring event emits exactly
the single occurrence `(dtstart, dtend)` when
`start_date ≤ dtstart ≤ end_date` and nothing otherwise; on a recurring
event it emits, for the rule-generated starts up to the first one past
`end_date` (stop), those at or after `start_date` (skip the others) as
`(start, start + duration)` with `duration = dtend - dtstart`. -/
theorem C8_expand_contract (ds de sd ed : Int) :
    (expand_recurring_events ⟨some ds, some de, none⟩ sd ed =
      Except.ok ((if sd ≤ ds ∧ ds ≤ ed then [(ds, de)] else []), false)) ∧
    (∀ occurrence_starts : List Int,
      expand_recurring_events
          ⟨some ds, some de, some (RRule.parsed occurrence_starts)⟩ sd ed =
        Except.ok
          (((occurrence_starts.takeWhile (fun s => decide (s ≤ ed))).filter
              (fun s => decide (sd ≤ s))).map (fun s => (s, s + (de - ds))),
           false)) := by
  refine ⟨rfl, ?_⟩
  intro occurrence_starts
  have hred : expand_recurring_events
      ⟨some ds, some de, some (RRule.parsed occurrence_starts)⟩ sd ed =
      Except.ok (occLoop ed sd (de - ds) occurrence_starts, false) := rfl
  rw [hred, occLoop_eq]

/-- C9: a malformed recurrence rule does not abort the run —
`expand_recurring_events` warns (`true`) and falls back to the single
occurrence `(dtstart, dtend)` when its start lies in the window, nothing
otherwise; and `get_busy_times` catches a per-event exception, counts
one warning, and processes the remaining events exactly as if the bad
event were absent. -/
theorem C9_graceful_degradation (sd ed : Int) :
    (∀ ds de : Int,
      expand_recurring_events ⟨some ds, some de, some RRule.parseError⟩ sd ed =
        Except.ok ((if sd ≤ ds ∧ ds ≤ ed then [(ds, de)] else []), true)) ∧
    (∀ (evs1 evs2 : List VEvent) (bad : VEvent),
      (∃ msg, expand_recurring_events bad sd ed = Except.error msg) →
      get_busy_times (evs1 ++ bad :: evs2) sd ed =
        ((get_busy_times (evs1 ++ evs2) sd ed).1,
         (get_busy_times (evs1 ++ evs2) sd ed).2 + 1)) := by
  constructor
  · intro ds de; rfl
  · rintro evs1 evs2 bad ⟨msg, hbad⟩
    simp only [get_busy_times]
    rw [List.foldl_append, List.foldl_append, List.foldl_cons]
    have hstep : busyStep sd ed
        (List.foldl (busyStep sd ed) ([], 0) evs1) bad =
        ((List.foldl (busyStep sd ed) ([], 0) evs1).1,
         (List.foldl (busyStep sd ed) ([], 0) evs1).2 + 1) := by
      unfold busyStep
      rw [hbad]
    rw [hstep, busyFold_add]

/-- C9 witness. -/
theorem C9_graceful_degradation_witness :
    (∃ msg, expand_recurring_events ⟨none, none, none⟩ 0 10 =
      Except.error msg) ∧
    get_busy_times ([] ++ (⟨none, none, none⟩ : VEvent) :: []) 0 10 =
      ((get_busy_times ([] ++ []) 0 10).1,
       (get_busy_times ([] ++ []) 0 10).2 + 1) :=
  ⟨⟨"missing DTSTART or DTEND", rfl⟩,
   (C9_graceful_degradation 0 10).2 [] [] ⟨none, none, none⟩
     ⟨"missing DTSTART or DTEND", rfl⟩⟩

/-- C10: with working blocks sorted ascending and pairwise disjoint and
valid busy intervals (and a nonnegative minimum duration, as the default
44 is), every slot emitted by `compute_available_slots` lies inside a
working block, and the emitted slots are pairwise disjoint. -/
theorem C10_slots_within_blocks (working_blocks busy_times : List Interval)
    (m : Int) (hm : 0 ≤ m)
    (hblocks : List.Pairwise (fun a b => a.2 ≤ b.1) working_blocks)
    (hbusy : ∀ b ∈ busy_times, b.1 < b.2) :
    (∀ s ∈ compute_available_slots working_blocks busy_times m,
        ∃ wb ∈ working_blocks, wb.1 ≤ s.1 ∧ s.2 ≤ wb.2) ∧
    List.Pairwise (fun a b => a.2 ≤ b.1 ∨ b.2 ≤ a.1)
      (compute_available_slots working_blocks busy_times m) := by
  have hmd : (0:Int) ≤ 60 * m := by omega
  constructor
  · intro s hs
    simp only [compute_available_slots] at hs
    split at hs
    · simp at hs
    · split at hs
      · exact ⟨s, List.mem_of_mem_filter hs, le_refl _, le_refl _⟩
      · obtain ⟨l, hl, hsl⟩ := List.mem_flatten.mp hs
        obtain ⟨wb, hwb, rfl⟩ := List.mem_map.mp hl
        have h := blockScan_mem_bounds _ _ hmd wb s hsl
        exact ⟨wb, hwb, h.1, h.2.2⟩
  · simp only [compute_available_slots]
    split
    · simp
    · split
      · exact (hblocks.filter _).imp (fun h => Or.inl h)
      · rw [List.pairwise_flatten]
        refine ⟨?_, ?_⟩
        · intro l hl
          obtain ⟨wb, hwb, rfl⟩ := List.mem_map.mp hl
          rw [blockScan_eq]
          refine (scanBusy_pairwise wb.2 (60 * m) _ ?_ wb.1).imp
            (fun h => Or.inl h)
          exact fun b hb => merge_valid hbusy b (List.mem_of_mem_drop hb)
        · rw [List.pairwise_map]
          exact hblocks.imp (fun hrel x hx y hy =>
            Or.inl (le_trans (blockScan_mem_bounds _ _ hmd _ x hx).2.2
              (le_trans hrel (blockScan_mem_bounds _ _ hmd _ y hy).1)))

/-- C10 witness. -/
theorem C10_slots_within_blocks_witness :
    ((0:Int) ≤ 44 ∧
      List.Pairwise (fun a b => a.2 ≤ b.1) [((0:Int), (12600:Int))] ∧
      (∀ b ∈ [((5400:Int), (7200:Int))], b.1 < b.2)) ∧
    ((∀ s ∈ compute_available_slots [((0:Int), (12600:Int))] [(5400, 7200)] 44,
        ∃ wb ∈ [((0:Int), (12600:Int))], wb.1 ≤ s.1 ∧ s.2 ≤ wb.2) ∧
      List.Pairwise (fun a b => a.2 ≤ b.1 ∨ b.2 ≤ a.1)
        (compute_available_slots [((0:Int), (12600:Int))] [(5400, 7200)] 44)) :=
  ⟨⟨by decide, by decide, by decide⟩,
   C10_slots_within_blocks [((0:Int), (12600:Int))] [(5400, 7200)] 44
     (by decide) (by decide) (by decide)⟩

/-- C2, counterexample: as stated (with the default minimum duration 44
and the 10-minute buffer the spec pairs with it) the round-trip fails:
on block 0–12600 s with busy interval 1800–12600 s the free gap of 30
minutes is dropped by the minimum-duration filter, so the instant `t = 0`
of the block is covered neither by a slot nor by (buffered, merged) busy
time. -/
theorem C2_counterexample :
    ¬ (∀ t : Int,
      memIv t ((0:Int), (12600:Int)) ↔
        (∃ s ∈ compute_available_slots [((0:Int), (12600:Int))] [(1800, 12600)] 44,
          memIv t s) ∨
        (∃ b ∈ merge_overlapping_intervals
            (List.insertionSort (fun a b : Interval => a.1 ≤ b.1)
              ([((1800:Int), (12600:Int))].map (pad_busy 10))),
          memIv t b ∧ memIv t ((0:Int), (12600:Int)))) := by
  intro h
  exact absurd ((h 0).mp (by decide)) (by decide)

/-- C2 (amended): with the minimum-duration filter disabled
(`min_duration_minutes = 0`; the code applies no buffer), the slots
emitted for a single working block together with the merged busy
intervals restricted to that block cover exactly the whole block, with
no overlap between slots and busy time, and with both lists internally
disjoint. -/
theorem C2_roundtrip_min_zero (wb : Interval) (busy_times : List Interval)
    (hbusy : ∀ b ∈ busy_times, b.1 < b.2) :
    (∀ t : Int,
      (memIv t wb ↔
        (∃ s ∈ compute_available_slots [wb] busy_times 0, memIv t s) ∨
        (∃ b ∈ merge_overlapping_intervals busy_times,
          memIv t b ∧ memIv t wb)) ∧
      ¬ ((∃ s ∈ compute_available_slots [wb] busy_times 0, memIv t s) ∧
         (∃ b ∈ merge_overlapping_intervals busy_times, memIv t b))) ∧
    List.Pairwise (fun a b => a.2 ≤ b.1)
      (compute_available_slots [wb] busy_times 0) ∧
    List.Pairwise (fun a b => a.2 < b.1)
      (merge_overlapping_intervals busy_times) := by
  have hmv := merge_valid hbusy
  have hmp := merge_pairwise hbusy
  by_cases hm : merge_overlapping_intervals busy_times = []
  · rw [compute_single_block, if_pos hm]
    refine ⟨?_, ?_, by rw [hm]; exact List.Pairwise.nil⟩
    · intro t
      rw [hm]
      constructor
      · constructor
        · intro ht
          left
          have hw : wb.2 - wb.1 > 60 * 0 := by
            obtain ⟨h1, h2⟩ := ht
            omega
          rw [if_pos hw]
          exact ⟨wb, List.mem_singleton.mpr rfl, ht⟩
        · rintro (⟨s, hs, hts⟩ | ⟨b, hb, _⟩)
          · by_cases hw : wb.2 - wb.1 > 60 * 0
            · rw [if_pos hw] at hs
              rwa [List.mem_singleton.mp hs] at hts
            · rw [if_neg hw] at hs
              simp at hs
          · simp at hb
      · rintro ⟨_, ⟨b, hb, _⟩⟩
        simp at hb
    · split_ifs <;> simp
  · rw [compute_single_block, if_neg hm, blockScan_eq]
    have hzero : (60:Int) * 0 = 0 := by norm_num
    rw [hzero]
    have hsv : ∀ b ∈ (merge_overlapping_intervals busy_times).drop
        (scanStartIdx ((merge_overlapping_intervals busy_times).map Prod.fst)
          wb.1), b.1 < b.2 :=
      fun b hb => hmv b (List.mem_of_mem_drop hb)
    have hsp := hmp.sublist (List.drop_sublist
      (scanStartIdx ((merge_overlapping_intervals busy_times).map Prod.fst)
        wb.1) _)
    refine ⟨?_, scanBusy_pairwise _ _ _ hsv _, hmp⟩
    intro t
    constructor
    · constructor
      · intro ht
        rcases scanBusy_cover wb.2 _ wb.1 t ht.1 ht.2 with
          ⟨s, hs, hts⟩ | ⟨b, hb, htb⟩
        · exact Or.inl ⟨s, hs, hts⟩
        · exact Or.inr ⟨b, List.mem_of_mem_drop hb, htb, ht⟩
      · rintro (⟨s, hs, hts⟩ | ⟨b, hb, htb, htw⟩)
        · have h1 := scanBusy_start_lb wb.2 0 _ wb.1 s hs
          have h2 := (scanBusy_mem_bounds wb.2 0 (le_refl 0) _ wb.1 s hs).2
          exact ⟨le_trans h1 hts.1, lt_of_lt_of_le hts.2 h2⟩
        · exact htw
    · rintro ⟨⟨s, hs, hts⟩, ⟨b, hb, htb⟩⟩
      have hsplit := List.take_append_drop
        (scanStartIdx ((merge_overlapping_intervals busy_times).map Prod.fst)
          wb.1) (merge_overlapping_intervals busy_times)
      rw [← hsplit] at hb
      rcases List.mem_append.mp hb with hbpre | hbsuf
      · have hend := take_scanStartIdx_bound _ wb.1 hmp b hbpre
        have h1 := scanBusy_start_lb wb.2 0 _ wb.1 s hs
        obtain ⟨hts1, hts2⟩ := hts
        obtain ⟨htb1, htb2⟩ := htb
        omega
      · have hdisj := scanBusy_disjoint wb.2 0 _ hsv hsp wb.1 b hbsuf s hs
        obtain ⟨hts1, hts2⟩ := hts
        obtain ⟨htb1, htb2⟩ := htb
        rcases hdisj with h | h <;> omega

/-- C2 witness. -/
theorem C2_roundtrip_min_zero_witness :
    (∀ b ∈ [((3600:Int), (7200:Int))], b.1 < b.2) ∧
    ((∀ t : Int,
      (memIv t ((0:Int), (12600:Int)) ↔
        (∃ s ∈ compute_available_slots [((0:Int), (12600:Int))] [(3600, 7200)] 0,
          memIv t s) ∨
        (∃ b ∈ merge_overlapping_intervals [((3600:Int), (7200:Int))],
          memIv t b ∧ memIv t ((0:Int), (12600:Int)))) ∧
      ¬ ((∃ s ∈ compute_available_slots [((0:Int), (12600:Int))] [(3600, 7200)] 0,
          memIv t s) ∧
         (∃ b ∈ merge_overlapping_intervals [((3600:Int), (7200:Int))],
          memIv t b))) ∧
    List.Pairwise (fun a b => a.2 ≤ b.1)
      (compute_available_slots [((0:Int), (12600:Int))] [(3600, 7200)] 0) ∧
    List.Pairwise (fun a b => a.2 < b.1)
      (merge_overlapping_intervals [((3600:Int), (7200:Int))])) :=
  ⟨by decide,
   C2_roundtrip_min_zero ((0:Int), (12600:Int)) [(3600, 7200)] (by decide)⟩

end ICSAvail
